import Mathlib

/-!
Verification development for the winpiclab image labeler (`piclab.cpp`).

The program is shallowly embedded: each C++ helper becomes a Lean
function over `List Char` (wide strings), `ℚ` (GDI+ `REAL`/`double`
arithmetic, modelled exactly) and explicit parameters for the external
world (filesystem contents, the GDI+ measurement result, the tick
counter, the user's dialog inputs).
-/

namespace Piclab

/-! ### Label geometry (ProcessAndSave, piclab.cpp lines 232-261) -/

/-- `std::max<double>(a, b)`, i.e. `(a < b) ? b : a`. -/
def qmax (a b : ℚ) : ℚ := if a < b then b else a

/-- `std::min<double>(a, b)`, i.e. `(b < a) ? b : a`. -/
def qmin (a b : ℚ) : ℚ := if b < a then b else a

theorem qmax_eq_max (a b : ℚ) : qmax a b = max a b := by
  unfold qmax
  rcases lt_or_ge a b with h | h
  · simp [h, max_eq_right h.le]
  · simp [not_lt.2 h, max_eq_left h]

theorem qmin_eq_min (a b : ℚ) : qmin a b = min a b := by
  unfold qmin
  rcases lt_or_ge b a with h | h
  · simp [h, min_eq_right h.le]
  · simp [not_lt.2 h, min_eq_left h]

/-- `pad = std::max(8.0, h * 0.012)` (line 232). -/
def padOf (h : ℚ) : ℚ := qmax 8 (h * 0.012)

/-- `fontPt = std::max(10.0, h * 0.042)` (line 233). -/
def fontPtOf (h : ℚ) : ℚ := qmax 10 (h * 0.042)

/-- The scrim height computed at lines 251-253:
`scrimH = bounds.Height + 2*pad`, then
`scrimH = max(scrimH, max(h*0.05, 18.0))`, then
`scrimH = min(scrimH, h*0.15)`.  `textH` is the measured text height
`bounds.Height` returned by GDI+ `MeasureString`. -/
def scrimHOf (h textH : ℚ) : ℚ :=
  let s1 := textH + 2 * padOf h
  let s2 := qmax s1 (qmax (h * 0.05) 18)
  qmin s2 (h * 0.15)

/-- Spec-side clamp, following the specification's words:
`clamp(x, lo, hi)` with the lower bound applied first and
the upper bound applied last. -/
def clampSpec (x lo hi : ℚ) : ℚ := qmin (qmax x lo) hi

/-- Claim C4: the label geometry computes `pad = max(8, 0.012·H)`,
`fontSize = max(10, 0.042·H)`, and
`Hscrim = clamp(Htext + 2·pad, max(18, 0.05·H), 0.15·H)` with the upper
clamp applied last, so that when the lower bound `max(18, 0.05·H)`
exceeds `0.15·H` the result is `0.15·H`. -/
theorem geometry_formulas (h t : ℚ) :
    padOf h = qmax 8 (h * 0.012) ∧
    fontPtOf h = qmax 10 (h * 0.042) ∧
    scrimHOf h t = clampSpec (t + 2 * padOf h) (qmax 18 (h * 0.05)) (h * 0.15) ∧
    (h * 0.15 < qmax 18 (h * 0.05) → scrimHOf h t = h * 0.15) := by
  refine ⟨rfl, rfl, ?_, ?_⟩
  · rw [scrimHOf, clampSpec]
    rw [qmax_eq_max (h * 0.05) 18, qmax_eq_max 18 (h * 0.05), max_comm (h * 0.05) 18]
  · intro hlt
    rw [scrimHOf, qmin_eq_min]
    refine min_eq_right ?_
    rw [qmax_eq_max, qmax_eq_max] at *
    calc h * 0.15 ≤ max (h * 0.05) 18 := by
          rw [max_comm]; exact hlt.le
      _ ≤ max (t + 2 * padOf h) (max (h * 0.05) 18) := le_max_right _ _

/-- Witness for `geometry_formulas` at `H = 100`, `Htext = 12`: the lower
bound `max(18, 5) = 18` exceeds the upper bound `15`, and the computed
scrim height is the upper bound `15`. -/
theorem geometry_formulas_witness :
    (100 : ℚ) * 0.15 < qmax 18 ((100 : ℚ) * 0.05) ∧
    scrimHOf 100 12 = (100 : ℚ) * 0.15 :=
  ⟨by norm_num [qmax], (geometry_formulas 100 12).2.2.2 (by norm_num [qmax])⟩

/-- Claim C2 counterexample: at height `H = 100` (with measured text
height `12`, e.g. a one-line label), the computed scrim height is
`15 = 0.15·H`, which does NOT lie in the claimed closed interval
`[max(18, 0.05·H), 0.15·H] = [18, 15]` (that interval is empty). -/
theorem scrimH_interval_counterexample :
    ¬ (qmax 18 ((100 : ℚ) * 0.05) ≤ scrimHOf 100 12 ∧
       scrimHOf 100 12 ≤ (100 : ℚ) * 0.15) := by
  norm_num [scrimHOf, padOf, qmax, qmin]

/-- Claim C2 (amended): whenever the claimed interval is nonempty, i.e.
`max(18, 0.05·H) ≤ 0.15·H` (equivalently `H ≥ 120`), the computed scrim
height lies in `[max(18, 0.05·H), 0.15·H]`. -/
theorem scrimH_in_interval (h t : ℚ) (hle : qmax 18 (h * 0.05) ≤ h * 0.15) :
    qmax 18 (h * 0.05) ≤ scrimHOf h t ∧ scrimHOf h t ≤ h * 0.15 := by
  rw [scrimHOf, qmin_eq_min, qmax_eq_max (t + 2 * padOf h), qmax_eq_max (h * 0.05) 18,
    qmax_eq_max 18 (h * 0.05)]
  rw [qmax_eq_max 18 (h * 0.05)] at hle
  constructor
  · refine le_min ?_ ?_
    · calc max 18 (h * 0.05) = max (h * 0.05) 18 := max_comm _ _
        _ ≤ max (t + 2 * padOf h) (max (h * 0.05) 18) := le_max_right _ _
    · exact hle
  · exact min_le_right _ _

/-- Witness for `scrimH_in_interval` at `H = 1200`, `Htext = 50`:
`max(18, 60) = 60 ≤ 180` and the scrim height `78.8` is in `[60, 180]`. -/
theorem scrimH_in_interval_witness :
    qmax 18 ((1200 : ℚ) * 0.05) ≤ scrimHOf 1200 50 ∧
    scrimHOf 1200 50 ≤ (1200 : ℚ) * 0.15 :=
  scrimH_in_interval 1200 50 (by norm_num [qmax])

/-! ### GDI+ rectangles

GDI+ `RectF` rectangles carry `REAL` coordinates, modelled as `ℚ`.
(Used below for the `MeasureString` layout box of ProcessAndSave,
line 247.) -/

structure RectQ where
  x : ℚ
  y : ℚ
  w : ℚ
  h : ℚ

/-! ### Path utilities (piclab.cpp lines 67-87)

Wide strings are modelled as `List Char`.  `std::wstring::find_last_of`
is modelled by `findLastIdx`, which returns the index of the last
character satisfying the predicate (`npos` becomes `none`). -/

/-- The character matched by `find_last_of(L'.')`. -/
def isDot (c : Char) : Bool := c == '.'

/-- The characters matched by `find_last_of(L"\\/")`. -/
def isSep (c : Char) : Bool := c == '\\' || c == '/'

/-- `s.find_last_of(pred)`: index of the last character satisfying
`p`, or `none` when there is none. -/
def findLastIdx (p : Char → Bool) : List Char → Option Nat
  | [] => none
  | c :: cs =>
    match findLastIdx p cs with
    | some j => some (j + 1)
    | none => if p c then some 0 else none

theorem findLastIdx_eq_none_iff (p : Char → Bool) (l : List Char) :
    findLastIdx p l = none ↔ ∀ c ∈ l, p c = false := by
  induction l with
  | nil => simp [findLastIdx]
  | cons c cs ih =>
    rw [findLastIdx]
    cases hcs : findLastIdx p cs with
    | some j =>
      simp only [reduceCtorEq, false_iff, not_forall]
      have : ¬ ∀ c ∈ cs, p c = false := by
        intro hall
        rw [ih.2 hall] at hcs
        exact absurd hcs (by simp)
      push_neg at this
      obtain ⟨x, hx, hpx⟩ := this
      exact ⟨x, List.mem_cons_of_mem _ hx, hpx⟩
    | none =>
      constructor
      · intro hif x hx
        by_cases hpc : p c = true
        · rw [if_pos hpc] at hif
          exact absurd hif (by simp)
        · have hpc' : p c = false := by simpa using hpc
          rcases List.mem_cons.1 hx with rfl | hx'
          · exact hpc'
          · exact (ih.1 hcs) x hx'
      · intro hall
        have hpc : p c = false := hall c (List.mem_cons_self _ _)
        simp [hpc]

theorem findLastIdx_append (p : Char → Bool) (xs ys : List Char) :
    findLastIdx p (xs ++ ys) =
      match findLastIdx p ys with
      | some j => some (xs.length + j)
      | none => findLastIdx p xs := by
  induction xs with
  | nil => cases h : findLastIdx p ys <;> simp [h, findLastIdx]
  | cons c xs ih =>
    rw [List.cons_append, findLastIdx, ih, findLastIdx]
    cases h : findLastIdx p ys with
    | some j =>
      simp only [List.length_cons]
      exact congrArg some (by omega)
    | none =>
      cases h2 : findLastIdx p xs <;> simp

/-- `findLastIdx` returns a valid index whose character satisfies `p`. -/
theorem findLastIdx_some_sat (p : Char → Bool) (l : List Char) (i : Nat)
    (h : findLastIdx p l = some i) :
    ∃ hi : i < l.length, p l[i] = true := by
  induction l generalizing i with
  | nil => simp [findLastIdx] at h
  | cons c cs ih =>
    rw [findLastIdx] at h
    cases hcs : findLastIdx p cs with
    | some j =>
      rw [hcs] at h
      have hij : i = j + 1 := by
        simp only [Option.some.injEq] at h
        omega
      subst hij
      obtain ⟨hj, hpj⟩ := ih j hcs
      exact ⟨by simpa using Nat.succ_lt_succ hj, by simpa using hpj⟩
    | none =>
      rw [hcs] at h
      by_cases hpc : p c = true
      · rw [if_pos hpc] at h
        have hi0 : i = 0 := by
          simp only [Option.some.injEq] at h
          omega
        subst hi0
        exact ⟨by simp, by simpa using hpc⟩
      · rw [if_neg hpc] at h
        exact absurd h (by simp)

/-- No character after the index returned by `findLastIdx` satisfies `p`. -/
theorem findLastIdx_some_last (p : Char → Bool) (l : List Char) (i : Nat)
    (h : findLastIdx p l = some i) :
    ∀ j (hj : j < l.length), i < j → p l[j] = false := by
  induction l generalizing i with
  | nil => simp [findLastIdx] at h
  | cons c cs ih =>
    rw [findLastIdx] at h
    cases hcs : findLastIdx p cs with
    | some k =>
      rw [hcs] at h
      have hik : i = k + 1 := by
        simp only [Option.some.injEq] at h
        omega
      subst hik
      intro j hj hlt
      match j, hj with
      | j' + 1, hj =>
        have hj' : j' < cs.length := by simpa using hj
        have := ih k hcs j' hj' (by omega)
        simpa using this
    | none =>
      rw [hcs] at h
      by_cases hpc : p c = true
      · rw [if_pos hpc] at h
        have hi0 : i = 0 := by
          simp only [Option.some.injEq] at h
          omega
        subst hi0
        intro j hj hlt
        match j, hj with
        | j' + 1, hj =>
          have hj' : j' < cs.length := by simpa using hj
          have := (findLastIdx_eq_none_iff p cs).1 hcs cs[j'] (List.getElem_mem hj')
          simpa using this
      · rw [if_neg hpc] at h
        exact absurd h (by simp)

theorem findLastIdx_drop_succ_none (p : Char → Bool) (l : List Char) (i : Nat)
    (h : findLastIdx p l = some i) : findLastIdx p (l.drop (i + 1)) = none := by
  rw [findLastIdx_eq_none_iff]
  intro c hc
  obtain ⟨n, hn, rfl⟩ := List.mem_iff_getElem.1 hc
  rw [List.getElem_drop]
  have hlen : i + 1 + n < l.length := by
    simp only [List.length_drop] at hn
    omega
  exact findLastIdx_some_last p l i h (i + 1 + n) hlen (by omega)

theorem isDot_iff (c : Char) : isDot c = true ↔ c = '.' := by
  simp [isDot]

theorem isSep_of_isDot (c : Char) (h : isDot c = true) : isSep c = false := by
  rw [isDot_iff] at h
  subst h
  rfl

/-- `PathWithSuffixBeforeExt` (piclab.cpp lines 67-77):
```
size_t dot = path.find_last_of(L'.');
size_t slash = path.find_last_of(L"\\/");
if (dot == npos || (slash != npos && dot < slash)) return path + suffix;
out.insert(dot, suffix);
```
-/
def pathWithSuffixBeforeExt (path suffix : List Char) : List Char :=
  match findLastIdx isDot path, findLastIdx isSep path with
  | none, _ => path ++ suffix
  | some d, none => path.take d ++ suffix ++ path.drop d
  | some d, some sl =>
    if d < sl then path ++ suffix else path.take d ++ suffix ++ path.drop d

/-- The part of a path after its last separator (the whole path when
there is no separator): the file-name component. -/
def lastComponent (path : List Char) : List Char :=
  match findLastIdx isSep path with
  | none => path
  | some sl => path.drop (sl + 1)

/-- Claim C5: `PathWithSuffixBeforeExt` inserts the suffix immediately
before the final `.` when that dot comes after the last path separator
(second conjunct), and otherwise appends the suffix: in particular it
appends whenever the file-name component contains no dot — covering
paths with no dot, dots only in parent directories (first conjunct) and
paths ending in a separator (fourth conjunct) — and maps `a.b.c` to
`a.b<S>.c` (third conjunct). -/
theorem suffix_before_ext_spec (path suffix : List Char) :
    ((∀ c ∈ lastComponent path, isDot c = false) →
        pathWithSuffixBeforeExt path suffix = path ++ suffix) ∧
    (∀ d, findLastIdx isDot path = some d →
        (∀ j (hj : j < path.length), d < j → isSep path[j] = false) →
        pathWithSuffixBeforeExt path suffix =
          path.take d ++ suffix ++ path.drop d) ∧
    (pathWithSuffixBeforeExt (['a', '.', 'b', '.', 'c']) suffix =
        ['a', '.', 'b'] ++ suffix ++ ['.', 'c']) ∧
    (∀ q c, isSep c = true →
        pathWithSuffixBeforeExt (q ++ [c]) suffix = (q ++ [c]) ++ suffix) := by
  refine ⟨?_, ?_, ?_, ?_⟩
  · intro hnodot
    unfold pathWithSuffixBeforeExt
    cases hdot : findLastIdx isDot path with
    | none => rfl
    | some d =>
      obtain ⟨hd, hpd⟩ := findLastIdx_some_sat isDot path d hdot
      cases hsl : findLastIdx isSep path with
      | none =>
        exfalso
        have hmem : path[d] ∈ lastComponent path := by
          rw [lastComponent, hsl]
          exact List.getElem_mem hd
        rw [hnodot _ hmem] at hpd
        exact absurd hpd (by simp)
      | some sl =>
        obtain ⟨hsl', hpsl⟩ := findLastIdx_some_sat isSep path sl hsl
        have hne : d ≠ sl := by
          intro he
          subst he
          rw [isSep_of_isDot _ hpd] at hpsl
          exact absurd hpsl (by simp)
        have hlt : d < sl := by
          rcases Nat.lt_or_ge d sl with h | h
          · exact h
          · exfalso
            have hmem : path[d] ∈ lastComponent path := by
              rw [lastComponent, hsl, List.mem_iff_getElem]
              have hix : sl + 1 + (d - (sl + 1)) = d := by omega
              refine ⟨d - (sl + 1), by simp only [List.length_drop]; omega, ?_⟩
              simp only [List.getElem_drop, hix]
            rw [hnodot _ hmem] at hpd
            exact absurd hpd (by simp)
        show (if d < sl then path ++ suffix
            else path.take d ++ suffix ++ path.drop d) = path ++ suffix
        rw [if_pos hlt]
  · intro d hdot hnosep
    unfold pathWithSuffixBeforeExt
    rw [hdot]
    cases hsl : findLastIdx isSep path with
    | none => rfl
    | some sl =>
      obtain ⟨hsl', hpsl⟩ := findLastIdx_some_sat isSep path sl hsl
      have hnlt : ¬ d < sl := by
        intro hlt
        rw [hnosep sl hsl' hlt] at hpsl
        exact absurd hpsl (by simp)
      show (if d < sl then path ++ suffix
          else path.take d ++ suffix ++ path.drop d) =
        path.take d ++ suffix ++ path.drop d
      rw [if_neg hnlt]
  · rfl
  · intro q c hc
    unfold pathWithSuffixBeforeExt
    have hseps : findLastIdx isSep (q ++ [c]) = some q.length := by
      rw [findLastIdx_append]
      have hone : findLastIdx isSep [c] = some 0 := by
        rw [findLastIdx, findLastIdx, if_pos hc]
      rw [hone]
      show some (q.length + 0) = some q.length
      rw [Nat.add_zero]
    rw [hseps]
    cases hdot : findLastIdx isDot (q ++ [c]) with
    | none => rfl
    | some d =>
      obtain ⟨hd, hpd⟩ := findLastIdx_some_sat isDot (q ++ [c]) d hdot
      have hdlen : d < q.length + 1 := by simpa using hd
      have hne : d ≠ q.length := by
        intro he
        have hgc : (q ++ [c])[d] = c := by
          rw [List.getElem_append_right (by omega)]
          simp [he]
        rw [hgc] at hpd
        rw [isSep_of_isDot c hpd] at hc
        exact absurd hc (by simp)
      have hlt : d < q.length := by omega
      show (if d < q.length then (q ++ [c]) ++ suffix
          else (q ++ [c]).take d ++ suffix ++ (q ++ [c]).drop d) =
        (q ++ [c]) ++ suffix
      rw [if_pos hlt]

/-- Witness for `suffix_before_ext_spec`: for the path `d.x/f`
(whose only dot lies in a parent directory) the suffix `_l` is
appended, giving `d.x/f_l`. -/
theorem suffix_before_ext_spec_witness :
    pathWithSuffixBeforeExt ['d', '.', 'x', '/', 'f'] ['_', 'l'] =
      ['d', '.', 'x', '/', 'f'] ++ ['_', 'l'] :=
  (suffix_before_ext_spec ['d', '.', 'x', '/', 'f'] ['_', 'l']).1 (by decide)

theorem pwsbe_of_dot_none (P S : List Char) (h : findLastIdx isDot P = none) :
    pathWithSuffixBeforeExt P S = P ++ S := by
  unfold pathWithSuffixBeforeExt
  rw [h]

theorem pwsbe_insert_of_sep_none (P S : List Char) (d : Nat)
    (hd : findLastIdx isDot P = some d) (hs : findLastIdx isSep P = none) :
    pathWithSuffixBeforeExt P S = P.take d ++ S ++ P.drop d := by
  unfold pathWithSuffixBeforeExt
  rw [hd, hs]

theorem pwsbe_append_of_lt (P S : List Char) (d sl : Nat)
    (hd : findLastIdx isDot P = some d) (hs : findLastIdx isSep P = some sl)
    (hlt : d < sl) : pathWithSuffixBeforeExt P S = P ++ S := by
  unfold pathWithSuffixBeforeExt
  rw [hd, hs]
  show (if d < sl then P ++ S else P.take d ++ S ++ P.drop d) = P ++ S
  rw [if_pos hlt]

theorem pwsbe_insert_of_ge (P S : List Char) (d sl : Nat)
    (hd : findLastIdx isDot P = some d) (hs : findLastIdx isSep P = some sl)
    (hge : ¬ d < sl) :
    pathWithSuffixBeforeExt P S = P.take d ++ S ++ P.drop d := by
  unfold pathWithSuffixBeforeExt
  rw [hd, hs]
  show (if d < sl then P ++ S else P.take d ++ S ++ P.drop d) =
    P.take d ++ S ++ P.drop d
  rw [if_neg hge]

theorem findLastIdx_dot_drop (P : List Char) (d : Nat)
    (hdot : findLastIdx isDot P = some d) :
    findLastIdx isDot (P.drop d) = some 0 := by
  obtain ⟨hd, hpd⟩ := findLastIdx_some_sat isDot P d hdot
  rw [← List.cons_getElem_drop_succ (h := hd)]
  rw [findLastIdx, findLastIdx_drop_succ_none isDot P d hdot]
  show (if isDot P[d] then some 0 else none) = some 0
  rw [if_pos hpd]

theorem findLastIdx_dot_inner (P S1 : List Char) (d : Nat)
    (hdot : findLastIdx isDot P = some d) :
    findLastIdx isDot ((P.take d ++ S1) ++ P.drop d) = some (d + S1.length) := by
  obtain ⟨hd, _⟩ := findLastIdx_some_sat isDot P d hdot
  rw [findLastIdx_append, findLastIdx_dot_drop P d hdot]
  show some ((P.take d ++ S1).length + 0) = some (d + S1.length)
  rw [Nat.add_zero]
  simp [Nat.min_eq_left hd.le]

/-- In `take d ++ S1 ++ drop d`, when the dropped part of `P` contains
no separator, any last separator lies strictly below index
`d + S1.length`. -/
theorem findLastIdx_sep_inner_lt (P S1 : List Char) (d sl' : Nat)
    (hd : d ≤ P.length) (hdropn : findLastIdx isSep (P.drop d) = none)
    (h : findLastIdx isSep ((P.take d ++ S1) ++ P.drop d) = some sl') :
    sl' < d + S1.length := by
  have hstep : findLastIdx isSep ((P.take d ++ S1) ++ P.drop d) =
      findLastIdx isSep (P.take d ++ S1) := by
    rw [findLastIdx_append, hdropn]
  rw [hstep] at h
  obtain ⟨hlen, _⟩ := findLastIdx_some_sat isSep _ sl' h
  simp only [List.length_append, List.length_take] at hlen
  rw [Nat.min_eq_left hd] at hlen
  exact hlen

/-- The insert branch is taken whenever the last dot is at or after the
last separator (or there is no separator). -/
theorem pwsbe_insert_of_sep_le (P S : List Char) (D : Nat)
    (hd : findLastIdx isDot P = some D)
    (hs : ∀ s, findLastIdx isSep P = some s → ¬ D < s) :
    pathWithSuffixBeforeExt P S = P.take D ++ S ++ P.drop D := by
  unfold pathWithSuffixBeforeExt
  rw [hd]
  cases hsl : findLastIdx isSep P with
  | none => rfl
  | some s =>
    show (if D < s then P ++ S else P.take D ++ S ++ P.drop D) =
      P.take D ++ S ++ P.drop D
    rw [if_neg (hs s hsl)]

/-- Applying suffix-before-extension to an already-inserted result
`take d ++ S1 ++ drop d` inserts the second suffix right after `S1`,
provided the dropped part of `P` (which starts with the final dot)
contains no separator. -/
theorem pwsbe_double_insert_step (P S1 S2 : List Char) (d : Nat)
    (hdot : findLastIdx isDot P = some d)
    (hdropn : findLastIdx isSep (P.drop d) = none) :
    pathWithSuffixBeforeExt ((P.take d ++ S1) ++ P.drop d) S2 =
      (P.take d ++ S1) ++ S2 ++ P.drop d := by
  obtain ⟨hdlt, _⟩ := findLastIdx_some_sat isDot P d hdot
  have hlen : (P.take d ++ S1).length = d + S1.length := by
    simp [Nat.min_eq_left hdlt.le]
  have hdin := findLastIdx_dot_inner P S1 d hdot
  have hsfun : ∀ s, findLastIdx isSep ((P.take d ++ S1) ++ P.drop d) = some s →
      ¬ (d + S1.length) < s := by
    intro s hsome
    have := findLastIdx_sep_inner_lt P S1 d s hdlt.le hdropn hsome
    omega
  rw [pwsbe_insert_of_sep_le ((P.take d ++ S1) ++ P.drop d) S2 (d + S1.length)
    hdin hsfun, List.take_left' hlen, List.drop_left' hlen]

/-- Claim C7 counterexample: with `P = "a"`, `S1 = ".x"`, `S2 = "_y"`,
double application gives `"a_y.x"`, whereas the claim demands `P` with
`S1S2` appended (since `"a"` has no extension), i.e. `"a.x_y"`. -/
theorem double_suffix_counterexample :
    pathWithSuffixBeforeExt (pathWithSuffixBeforeExt ['a'] ['.', 'x']) ['_', 'y'] ≠
      ['a'] ++ (['.', 'x'] ++ ['_', 'y']) := by
  decide

/-- Claim C7 (amended): for every path `P` and suffixes `S1` and `S2`
such that `S1` contains no dot, applying suffix-before-extension twice
equals inserting the concatenation `S1 ++ S2` before `P`'s final
extension (appended when `P` has none) — the right-hand side operation
being `pathWithSuffixBeforeExt P (S1 ++ S2)` itself, by claim C5.
`S1` may contain path separators. -/
theorem double_suffix_insert (P S1 S2 : List Char)
    (h1 : ∀ c ∈ S1, isDot c = false) :
    pathWithSuffixBeforeExt (pathWithSuffixBeforeExt P S1) S2 =
      pathWithSuffixBeforeExt P (S1 ++ S2) := by
  have hdS1 : findLastIdx isDot S1 = none := (findLastIdx_eq_none_iff _ _).2 h1
  cases hdot : findLastIdx isDot P with
  | none =>
    rw [pwsbe_of_dot_none P S1 hdot]
    have hd2 : findLastIdx isDot (P ++ S1) = none := by
      rw [findLastIdx_append, hdS1]
      exact hdot
    rw [pwsbe_of_dot_none _ S2 hd2, pwsbe_of_dot_none P (S1 ++ S2) hdot,
      List.append_assoc]
  | some d =>
    obtain ⟨hd, hpd⟩ := findLastIdx_some_sat isDot P d hdot
    cases hsep : findLastIdx isSep P with
    | none =>
      have hdropn : findLastIdx isSep (P.drop d) = none := by
        rw [findLastIdx_eq_none_iff]
        exact fun c hc =>
          (findLastIdx_eq_none_iff isSep P).1 hsep c (List.drop_subset _ _ hc)
      rw [pwsbe_insert_of_sep_none P S1 d hdot hsep,
        pwsbe_double_insert_step P S1 S2 d hdot hdropn,
        pwsbe_insert_of_sep_none P (S1 ++ S2) d hdot hsep]
      simp [List.append_assoc]
    | some sl =>
      by_cases hlt : d < sl
      · rw [pwsbe_append_of_lt P S1 d sl hdot hsep hlt]
        have hd2 : findLastIdx isDot (P ++ S1) = some d := by
          rw [findLastIdx_append, hdS1]
          exact hdot
        cases hS1sep : findLastIdx isSep S1 with
        | some s =>
          have hs2 : findLastIdx isSep (P ++ S1) = some (P.length + s) := by
            rw [findLastIdx_append, hS1sep]
          rw [pwsbe_append_of_lt _ S2 d (P.length + s) hd2 hs2 (by omega),
            pwsbe_append_of_lt P (S1 ++ S2) d sl hdot hsep hlt,
            List.append_assoc]
        | none =>
          have hs2 : findLastIdx isSep (P ++ S1) = some sl := by
            rw [findLastIdx_append, hS1sep]
            exact hsep
          rw [pwsbe_append_of_lt _ S2 d sl hd2 hs2 hlt,
            pwsbe_append_of_lt P (S1 ++ S2) d sl hdot hsep hlt,
            List.append_assoc]
      · have hslt : sl < d := by
          obtain ⟨hsl, hpsl⟩ := findLastIdx_some_sat isSep P sl hsep
          have hne : d ≠ sl := by
            intro he
            subst he
            rw [isSep_of_isDot _ hpd] at hpsl
            exact absurd hpsl (by simp)
          omega
        have hdropn : findLastIdx isSep (P.drop d) = none := by
          rw [findLastIdx_eq_none_iff]
          intro c hc
          obtain ⟨n, hn, rfl⟩ := List.mem_iff_getElem.1 hc
          rw [List.getElem_drop]
          have hlen : d + n < P.length := by
            simp only [List.length_drop] at hn
            omega
          exact findLastIdx_some_last isSep P sl hsep (d + n) hlen (by omega)
        rw [pwsbe_insert_of_ge P S1 d sl hdot hsep hlt,
          pwsbe_double_insert_step P S1 S2 d hdot hdropn,
          pwsbe_insert_of_ge P (S1 ++ S2) d sl hdot hsep hlt]
        simp [List.append_assoc]

/-- Witness for `double_suffix_insert`: `P = "a.b"`, `S1 = "_x"`,
`S2 = "_y"`: both sides give `"a_x_y.b"`. -/
theorem double_suffix_insert_witness :
    pathWithSuffixBeforeExt (pathWithSuffixBeforeExt ['a', '.', 'b'] ['_', 'x'])
        ['_', 'y'] =
      pathWithSuffixBeforeExt ['a', '.', 'b'] (['_', 'x'] ++ ['_', 'y']) :=
  double_suffix_insert ['a', '.', 'b'] ['_', 'x'] ['_', 'y'] (by decide)

/-! ### Temporary sibling path (GetTempSiblingPath, piclab.cpp lines 79-87)

`swprintf_s(tmp, L"%s%s_label_tmp_%u.png", folder, fname, GetTickCount())`
where `folder = drive ++ dir` and `fname` come from `_wsplitpath_s`.
`GetTickCount()` is an external input, passed as the parameter `tick`. -/

/-- The decimal rendering of `%u`: most-significant digit first,
`0 ↦ "0"`. -/
def decDigits (n : Nat) : List Char :=
  if _h : n < 10 then [Nat.digitChar n]
  else decDigits (n / 10) ++ [Nat.digitChar (n % 10)]
termination_by n
decreasing_by
  exact Nat.div_lt_self (by omega) (by omega)

/-- Parse a decimal digit string back to a number (proof tool for the
injectivity of `decDigits`). -/
def decVal (l : List Char) : Nat := l.foldl (fun a c => a * 10 + (c.toNat - 48)) 0

theorem decVal_decDigits (n : Nat) : decVal (decDigits n) = n := by
  induction n using Nat.strong_induction_on with
  | _ n ih =>
    by_cases h : n < 10
    · rw [decDigits, dif_pos h]
      interval_cases n <;> decide
    · rw [decDigits, dif_neg h]
      rw [decVal, List.foldl_append]
      have hd : (Nat.digitChar (n % 10)).toNat - 48 = n % 10 := by
        have h10 : n % 10 < 10 := Nat.mod_lt _ (by omega)
        set m := n % 10 with hm
        interval_cases m <;> decide
      have hih := ih (n / 10) (Nat.div_lt_self (by omega) (by omega))
      rw [decVal] at hih
      simp only [List.foldl_cons, List.foldl_nil, hih, hd]
      omega

theorem decDigits_inj (m n : Nat) (h : decDigits m = decDigits n) : m = n := by
  have hc := congrArg decVal h
  rwa [decVal_decDigits, decVal_decDigits] at hc

/-- The drive part recognised by `_wsplitpath_s`: a leading
`<char>:` pair, if present. -/
def splitDrive (p : List Char) : List Char × List Char :=
  match p with
  | a :: ':' :: rest => ([a, ':'], rest)
  | _ => ([], p)

/-- `_wmakepath_s(folder, drive, dir, L"", L"")` applied to the
`_wsplitpath_s` decomposition: `folder = drive ++ dir` is everything up
to and including the last separator; the second component is the
file-name-with-extension part that follows. -/
def splitFolderName (p : List Char) : List Char × List Char :=
  match findLastIdx isSep (splitDrive p).2 with
  | some i =>
    ((splitDrive p).1 ++ (splitDrive p).2.take (i + 1), (splitDrive p).2.drop (i + 1))
  | none => ((splitDrive p).1, (splitDrive p).2)

/-- `_wsplitpath_s` split of the name part into `fname` and `ext`
(the extension starts at the last dot, if any). -/
def splitStemExt (nm : List Char) : List Char × List Char :=
  match findLastIdx isDot nm with
  | some d => (nm.take d, nm.drop d)
  | none => (nm, [])

/-- `GetTempSiblingPath` (piclab.cpp lines 79-87):
`<folder><fname>_label_tmp_<tick>.png`. -/
def getTempSiblingPath (p : List Char) (tick : Nat) : List Char :=
  (splitFolderName p).1 ++ (splitStemExt (splitFolderName p).2).1 ++
    ['_', 'l', 'a', 'b', 'e', 'l', '_', 't', 'm', 'p', '_'] ++
    decDigits tick ++ ['.', 'p', 'n', 'g']

/-- Claim C6 counterexample: the token is `GetTickCount()`, whose
resolution is 10-16 ms, so two successive calls routinely observe the
SAME tick value; the produced path depends only on the path and the
tick, hence two successive calls observing tick 100 on `a.png` return
the identical path — the claim that successive calls "never return the
same path" fails. -/
theorem temp_path_same_tick_collision :
    getTempSiblingPath ['a', '.', 'p', 'n', 'g'] 100 =
      getTempSiblingPath ['a', '.', 'p', 'n', 'g'] 100 := rfl

/-- Claim C6 (amended): the produced path is
`<folder><fname>_label_tmp_<token>.png` — same directory, stem
`<fname>_label_tmp_<token>`, extension fixed to `.png` — and two calls
return distinct paths whenever they observe distinct tick-counter
values (but may collide when `GetTickCount()` has not advanced between
the calls). -/
theorem temp_path_structure (p : List Char) (t1 t2 : Nat) (hne : t1 ≠ t2) :
    getTempSiblingPath p t1 =
      (splitFolderName p).1 ++ (splitStemExt (splitFolderName p).2).1 ++
        ['_', 'l', 'a', 'b', 'e', 'l', '_', 't', 'm', 'p', '_'] ++
        decDigits t1 ++ ['.', 'p', 'n', 'g'] ∧
    getTempSiblingPath p t1 ≠ getTempSiblingPath p t2 := by
  constructor
  · rfl
  · intro heq
    apply hne
    apply decDigits_inj
    simp only [getTempSiblingPath, List.append_assoc] at heq
    have h1 := List.append_cancel_left heq
    have h2 := List.append_cancel_left h1
    have h3 := List.append_cancel_left h2
    exact List.append_cancel_right h3

/-- Witness for `temp_path_structure` on `a.png` with ticks 1 and 2. -/
theorem temp_path_structure_witness :
    getTempSiblingPath ['a', '.', 'p', 'n', 'g'] 1 =
      (splitFolderName ['a', '.', 'p', 'n', 'g']).1 ++
        (splitStemExt (splitFolderName ['a', '.', 'p', 'n', 'g']).2).1 ++
        ['_', 'l', 'a', 'b', 'e', 'l', '_', 't', 'm', 'p', '_'] ++
        decDigits 1 ++ ['.', 'p', 'n', 'g'] ∧
    getTempSiblingPath ['a', '.', 'p', 'n', 'g'] 1 ≠
      getTempSiblingPath ['a', '.', 'p', 'n', 'g'] 2 :=
  temp_path_structure ['a', '.', 'p', 'n', 'g'] 1 2 (by decide)

/-! ### Persister, Overwrite mode (ProcessAndSave, piclab.cpp lines 274-289)

The filesystem is a map from paths to optional byte strings.  The
external outcomes are parameters: `encStatus` is the GDI+ `Status` of
`bmp->Save(tmp)` (`0` is `Ok`); `bytes` the encoded output;
`tmpLeftover` the (possibly partial) content left in `tmp` by a failed
encode; `renameOk` the success of `MoveFileExW`; `renameErr` the
`GetLastError()` code on rename failure; `sysMsg` the
`FormatMessageW` text (`LastErrorText`); `delOk` the success of the
best-effort `DeleteFileW`. -/

def FS : Type := List Char → Option (List Nat)

def fsUpdate (fs : FS) (k : List Char) (v : Option (List Nat)) : FS :=
  fun x => if x = k then v else fs x

theorem fsUpdate_ne (fs : FS) (k : List Char) (v : Option (List Nat))
    (x : List Char) (h : x ≠ k) : fsUpdate fs k v x = fs x := if_neg h

inductive SaveResult where
  | ok (savedPath : List Char)
  | encodeFailed (status : Nat)
  | renameFailed (err : Nat) (msg : List Char)
deriving DecidableEq

/-- The `if (overwrite)` branch of ProcessAndSave (lines 274-289):
save to `tmp`; on encode failure report `SaveFailed` with the encoder
status (leaving whatever the encoder wrote in `tmp`); otherwise
`MoveFileExW(tmp, src, REPLACE_EXISTING | COPY_ALLOWED)`; on rename
failure `DeleteFileW(tmp)` (best effort) and report `SaveFailed` with
the Win32 error code and its `LastErrorText` message. -/
def overwriteSave (fs : FS) (src tmp : List Char) (encStatus : Nat)
    (bytes : List Nat) (tmpLeftover : Option (List Nat)) (renameOk : Bool)
    (renameErr : Nat) (sysMsg : Nat → List Char) (delOk : Bool) :
    FS × SaveResult :=
  if encStatus ≠ 0 then
    (fsUpdate fs tmp tmpLeftover, SaveResult.encodeFailed encStatus)
  else
    let fs1 := fsUpdate fs tmp (some bytes)
    if renameOk then
      (fsUpdate (fsUpdate fs1 tmp none) src (some bytes), SaveResult.ok src)
    else
      (if delOk then fsUpdate fs1 tmp none else fs1,
       SaveResult.renameFailed renameErr (sysMsg renameErr))

/-- Claim C1: in Overwrite mode, on every non-success outcome the source
file is left byte-identical to its pre-run state; in particular when the
rename fails the temporary file is deleted (when the best-effort delete
succeeds), the operation fails with `SaveFailed` carrying the underlying
filesystem error code and its system message, and the source file is
untouched.  (`tmp ≠ src` always holds for `GetTempSiblingPath` output,
whose stem strictly extends the source stem.) -/
theorem overwrite_source_untouched (fs : FS) (src tmp : List Char)
    (encStatus : Nat) (bytes : List Nat) (tmpLeftover : Option (List Nat))
    (renameOk : Bool) (renameErr : Nat) (sysMsg : Nat → List Char)
    (delOk : Bool) (hne : tmp ≠ src) :
    ((overwriteSave fs src tmp encStatus bytes tmpLeftover renameOk renameErr
        sysMsg delOk).2 ≠ SaveResult.ok src →
      (overwriteSave fs src tmp encStatus bytes tmpLeftover renameOk renameErr
        sysMsg delOk).1 src = fs src) ∧
    (encStatus = 0 → renameOk = false →
      (overwriteSave fs src tmp encStatus bytes tmpLeftover renameOk renameErr
          sysMsg delOk).2 =
        SaveResult.renameFailed renameErr (sysMsg renameErr) ∧
      (delOk = true →
        (overwriteSave fs src tmp encStatus bytes tmpLeftover renameOk renameErr
          sysMsg delOk).1 tmp = none) ∧
      (overwriteSave fs src tmp encStatus bytes tmpLeftover renameOk renameErr
        sysMsg delOk).1 src = fs src) := by
  have hsrc : src ≠ tmp := Ne.symm hne
  by_cases he : encStatus = 0
  · subst he
    cases renameOk with
    | true =>
      constructor
      · intro hno
        exfalso
        exact hno (by simp [overwriteSave])
      · intro _ hfalse
        exact absurd hfalse (by simp)
    | false =>
      cases delOk with
      | true =>
        refine ⟨fun _ => ?_, fun _ _ => ⟨by simp [overwriteSave], fun _ => ?_, ?_⟩⟩
        · simp [overwriteSave, fsUpdate_ne _ _ _ _ hsrc]
        · simp [overwriteSave, fsUpdate]
        · simp [overwriteSave, fsUpdate_ne _ _ _ _ hsrc]
      | false =>
        refine ⟨fun _ => ?_, fun _ _ => ⟨by simp [overwriteSave], fun hfalse => ?_, ?_⟩⟩
        · simp [overwriteSave, fsUpdate_ne _ _ _ _ hsrc]
        · exact absurd hfalse (by simp)
        · simp [overwriteSave, fsUpdate_ne _ _ _ _ hsrc]
  · constructor
    · intro _
      simp [overwriteSave, he, fsUpdate_ne _ _ _ _ hsrc]
    · intro h0
      exact absurd h0 he

/-- Witness for `overwrite_source_untouched`: an empty filesystem, a
successful encode and a failed rename with error code 5 and a
successful best-effort delete: the result is `SaveFailed` with code 5
and its message, `tmp` is gone, and the source entry is unchanged. -/
theorem overwrite_source_untouched_witness :
    (overwriteSave (fun _ => none) ['a'] ['t'] 0 [1] none false 5
        (fun _ => ['E']) true).2 =
      SaveResult.renameFailed 5 ((fun _ : Nat => ['E']) 5) ∧
    (true = true →
      (overwriteSave (fun _ => none) ['a'] ['t'] 0 [1] none false 5
        (fun _ => ['E']) true).1 ['t'] = none) ∧
    (overwriteSave (fun _ => none) ['a'] ['t'] 0 [1] none false 5
        (fun _ => ['E']) true).1 ['a'] = (fun _ : List Char => (none : Option (List Nat))) ['a'] :=
  (overwrite_source_untouched (fun _ => none) ['a'] ['t'] 0 [1] none false 5
    (fun _ => ['E']) true (by decide)).2 rfl rfl

/-! ### Orchestrator and exit codes (wWinMain, piclab.cpp lines 309-353)

External inputs: `argc` from `CommandLineToArgvW`; `pathExists` from
`PathFileExistsW`; `input` is the label dialog outcome (`none` for
Cancel / window close, `some raw` for OK with raw edit-box text);
`choice` from the Yes / No / Cancel message box; `processOk` the result
of `ProcessAndSave`.  The model returns the exit code paired with a
flag recording whether `ProcessAndSave` was invoked. -/

/-- `iswspace` on the characters it matches in wide strings:
space, tab, newline, vertical tab, form feed, carriage return. -/
def isWSpace (c : Char) : Bool :=
  c == ' ' || c == '\t' || c == '\n' || c == '\x0b' || c == '\x0c' || c == '\r'

/-- `Trim` (piclab.cpp lines 31-36): strip leading and trailing
whitespace. -/
def trimW (s : List Char) : List Char :=
  ((s.dropWhile isWSpace).reverse.dropWhile isWSpace).reverse

/-- `PromptForText` outcome (piclab.cpp lines 137-148, 199-200):
on OK the text is trimmed and accepted only if non-empty; Cancel and
window close are not accepted. -/
def promptForText (input : Option (List Char)) : Option (List Char) :=
  match input with
  | none => none
  | some raw =>
    let t := trimW raw
    if t.isEmpty then none else some t

inductive Choice where
  | yes
  | no
  | cancel
deriving DecidableEq

/-- `wWinMain` (piclab.cpp lines 309-353): exit code and whether
`ProcessAndSave` ran. -/
def wWinMainModel (argc : Nat) (pathExists : Bool) (input : Option (List Char))
    (choice : Choice) (processOk : Bool) : Nat × Bool :=
  if argc < 2 then (1, false)
  else if pathExists = false then (2, false)
  else
    match promptForText input with
    | none => (0, false)
    | some _ =>
      match choice with
      | Choice.cancel => (0, false)
      | _ => if processOk then (0, true) else (3, true)

/-- Claim C8: exit code 0 on success and on cancellation at either
prompt and on an empty or whitespace-only label (never reaching the
compositor), 1 when the path argument is missing, 2 when the input path
does not exist, 3 when compositing or persistence fails. -/
theorem exit_codes_spec (argc : Nat) (pathExists : Bool)
    (input : Option (List Char)) (choice : Choice) (processOk : Bool) :
    (argc < 2 →
      wWinMainModel argc pathExists input choice processOk = (1, false)) ∧
    (2 ≤ argc → pathExists = false →
      wWinMainModel argc pathExists input choice processOk = (2, false)) ∧
    (2 ≤ argc → pathExists = true → input = none →
      wWinMainModel argc pathExists input choice processOk = (0, false)) ∧
    (2 ≤ argc → pathExists = true →
      ∀ raw, input = some raw → (∀ c ∈ raw, isWSpace c = true) →
      wWinMainModel argc pathExists input choice processOk = (0, false)) ∧
    (2 ≤ argc → pathExists = true → promptForText input ≠ none →
      choice = Choice.cancel →
      wWinMainModel argc pathExists input choice processOk = (0, false)) ∧
    (2 ≤ argc → pathExists = true → promptForText input ≠ none →
      choice ≠ Choice.cancel → processOk = true →
      wWinMainModel argc pathExists input choice processOk = (0, true)) ∧
    (2 ≤ argc → pathExists = true → promptForText input ≠ none →
      choice ≠ Choice.cancel → processOk = false →
      wWinMainModel argc pathExists input choice processOk = (3, true)) := by
  refine ⟨?_, ?_, ?_, ?_, ?_, ?_, ?_⟩
  · intro h
    simp [wWinMainModel, h]
  · intro h hpe
    have h2 : ¬ argc < 2 := by omega
    simp [wWinMainModel, h2, hpe]
  · intro h hpe hin
    have h2 : ¬ argc < 2 := by omega
    simp [wWinMainModel, h2, hpe, hin, promptForText]
  · intro h hpe raw hin hws
    have h2 : ¬ argc < 2 := by omega
    have h1 : raw.dropWhile isWSpace = [] :=
      List.dropWhile_eq_nil_iff.2 (fun x hx => hws x hx)
    have ht : trimW raw = [] := by
      rw [trimW, h1]
      rfl
    simp [wWinMainModel, h2, hpe, hin, promptForText, ht]
  · intro h hpe hne hch
    have h2 : ¬ argc < 2 := by omega
    cases hp : promptForText input with
    | none => exact absurd hp hne
    | some lbl =>
      subst hch
      simp [wWinMainModel, h2, hpe, hp]
  · intro h hpe hne hch hok
    have h2 : ¬ argc < 2 := by omega
    cases hp : promptForText input with
    | none => exact absurd hp hne
    | some lbl =>
      cases choice with
      | cancel => exact absurd rfl hch
      | yes => simp [wWinMainModel, h2, hpe, hp, hok]
      | no => simp [wWinMainModel, h2, hpe, hp, hok]
  · intro h hpe hne hch hok
    have h2 : ¬ argc < 2 := by omega
    cases hp : promptForText input with
    | none => exact absurd hp hne
    | some lbl =>
      cases choice with
      | cancel => exact absurd rfl hch
      | yes => simp [wWinMainModel, h2, hpe, hp, hok]
      | no => simp [wWinMainModel, h2, hpe, hp, hok]

/-- Witness for `exit_codes_spec`: each exit-code case at a concrete
input. -/
theorem exit_codes_spec_witness :
    wWinMainModel 1 true (some ['x']) Choice.yes true = (1, false) ∧
    wWinMainModel 2 false (some ['x']) Choice.yes true = (2, false) ∧
    wWinMainModel 2 true none Choice.yes true = (0, false) ∧
    wWinMainModel 2 true (some [' ', ' ']) Choice.yes true = (0, false) ∧
    wWinMainModel 2 true (some ['x']) Choice.cancel true = (0, false) ∧
    wWinMainModel 2 true (some ['x']) Choice.yes true = (0, true) ∧
    wWinMainModel 2 true (some ['x']) Choice.no false = (3, true) :=
  ⟨(exit_codes_spec 1 true (some ['x']) Choice.yes true).1 (by omega),
   (exit_codes_spec 2 false (some ['x']) Choice.yes true).2.1 (by omega) rfl,
   (exit_codes_spec 2 true none Choice.yes true).2.2.1 (by omega) rfl rfl,
   (exit_codes_spec 2 true (some [' ', ' ']) Choice.yes true).2.2.2.1 (by omega)
     rfl [' ', ' '] rfl (by decide),
   (exit_codes_spec 2 true (some ['x']) Choice.cancel true).2.2.2.2.1 (by omega)
     rfl (by decide) rfl,
   (exit_codes_spec 2 true (some ['x']) Choice.yes true).2.2.2.2.2.1 (by omega)
     rfl (by decide) (by decide) rfl,
   (exit_codes_spec 2 true (some ['x']) Choice.no false).2.2.2.2.2.2 (by omega)
     rfl (by decide) (by decide) rfl⟩

/-! ### Label layout configuration (ProcessAndSave, piclab.cpp lines 242-249)

The `StringFormat` flag values are the GDI+ enum constants from
`GdiPlusEnums.h`. -/

def StringFormatFlagsNoWrap : Nat := 4096

def StringFormatFlagsNoClip : Nat := 16384

inductive StrAlignment where
  | near
  | center
  | far
deriving DecidableEq

inductive StrTrimming where
  | nothing
  | character
  | word
  | ellipsisCharacter
  | ellipsisWord
  | ellipsisPath
deriving DecidableEq

structure StringFormatCfg where
  flags : Nat
  alignment : StrAlignment
  lineAlignment : StrAlignment
  trimming : StrTrimming

/-- The `StringFormat` built at lines 242-245:
`StringFormat sf(StringFormatFlagsNoClip)` with alignment Near, line
alignment Center, trimming EllipsisCharacter. -/
def piclabStringFormat : StringFormatCfg :=
  { flags := StringFormatFlagsNoClip
    alignment := StrAlignment.near
    lineAlignment := StrAlignment.center
    trimming := StrTrimming.ellipsisCharacter }

/-- `RectF layoutRect(0, 0, (REAL)w - 2 * pad, 1000)` (line 247): the
`MeasureString` layout box. -/
def measureLayoutRect (w h : Nat) : RectQ :=
  ⟨0, 0, (w : ℚ) - 2 * padOf (h : ℚ), 1000⟩

/-- Claim C9 counterexample: the StringFormat flags are exactly
`NoClip`: the `NoWrap` bit is NOT set, so GDI+ default word wrapping is
in effect (the claim asserts single-line rendering with no wrapping);
the `NoClip` bit IS set, so drawing is not clipped to `textRect`
(the claim asserts no drawing outside `textRect`); and the measurement
layout box has the fixed height 1000, not unbounded height. -/
theorem label_format_counterexample :
    piclabStringFormat.flags &&& StringFormatFlagsNoWrap = 0 ∧
    piclabStringFormat.flags &&& StringFormatFlagsNoClip ≠ 0 ∧
    (measureLayoutRect 800 600).h = 1000 :=
  ⟨by decide, by decide, rfl⟩

/-- Claim C9 (amended): overlong labels are drawn with left alignment,
vertical centering and single-character ellipsis trimming, but with the
`NoClip` flag set (so drawing may extend outside `textRect`), without
the `NoWrap` flag (so wrapping is not disabled), and measurement uses a
layout box of width `W - 2·pad` and fixed height 1000. -/
theorem label_format_config (w h : Nat) :
    piclabStringFormat.alignment = StrAlignment.near ∧
    piclabStringFormat.lineAlignment = StrAlignment.center ∧
    piclabStringFormat.trimming = StrTrimming.ellipsisCharacter ∧
    piclabStringFormat.flags = StringFormatFlagsNoClip ∧
    piclabStringFormat.flags &&& StringFormatFlagsNoWrap = 0 ∧
    measureLayoutRect w h = ⟨0, 0, (w : ℚ) - 2 * padOf (h : ℚ), 1000⟩ :=
  ⟨rfl, rfl, rfl, rfl, by decide, rfl⟩

/-! ### Encoder selection (GetEncoderClsid, piclab.cpp lines 51-65)

Registered encoders are pairs of a MIME-type string and an opaque CLSID
(a `Nat` here).  `sizeVal` is what `GetImageEncodersSize` stores in
`size`; `getOk` is whether `GetImageEncoders` returned `Ok`. -/

/-- The search loop at lines 58-63: first index `j` (starting at `j0`)
whose MIME type equals `format` under `wcscmp`, together with that
encoder's CLSID. -/
def findEnc (format : List Char) : Nat → List (List Char × Nat) → Option (Nat × Nat)
  | _, [] => none
  | j, e :: rest => if e.1 = format then some (j, e.2) else findEnc format (j + 1) rest

/-- `GetEncoderClsid`: `none` models the C++ return value `-1` (with
`*pClsid` not stored); `some (j, clsid)` models returning the index
`j ≥ 0` with `*pClsid` set. -/
def getEncoderClsid (sizeVal : Nat) (getOk : Bool)
    (encoders : List (List Char × Nat)) (format : List Char) :
    Option (Nat × Nat) :=
  if sizeVal = 0 then none
  else if getOk = false then none
  else findEnc format 0 encoders

theorem findEnc_some (format : List Char) (j0 : Nat)
    (encoders : List (List Char × Nat)) (k cl : Nat)
    (h : findEnc format j0 encoders = some (k, cl)) :
    ∃ i, ∃ hi : i < encoders.length, k = j0 + i ∧
      encoders[i].1 = format ∧ encoders[i].2 = cl ∧
      ∀ i' (hi' : i' < encoders.length), i' < i → encoders[i'].1 ≠ format := by
  induction encoders generalizing j0 with
  | nil => simp [findEnc] at h
  | cons e rest ih =>
    rw [findEnc] at h
    by_cases hm : e.1 = format
    · rw [if_pos hm] at h
      simp only [Option.some.injEq, Prod.mk.injEq] at h
      obtain ⟨hk, hcl⟩ := h
      refine ⟨0, by simp, by omega, by simpa using hm, by simpa using hcl, ?_⟩
      intro i' hi' hlt
      omega
    · rw [if_neg hm] at h
      obtain ⟨i, hi, hk, hfmt, hcl, hfirst⟩ := ih (j0 + 1) h
      refine ⟨i + 1, by simpa using Nat.succ_lt_succ hi, by omega,
        by simpa using hfmt, by simpa using hcl, ?_⟩
      intro i' hi' hlt
      match i', hi' with
      | 0, _ => simpa using hm
      | i'' + 1, hi' =>
        have hi'' : i'' < rest.length := by simpa using hi'
        have := hfirst i'' hi'' (by omega)
        simpa using this

theorem findEnc_none (format : List Char) (j0 : Nat)
    (encoders : List (List Char × Nat))
    (h : ∀ e ∈ encoders, e.1 ≠ format) :
    findEnc format j0 encoders = none := by
  induction encoders generalizing j0 with
  | nil => rfl
  | cons e rest ih =>
    rw [findEnc, if_neg (h e (List.mem_cons_self _ _))]
    exact ih (j0 + 1) (fun x hx => h x (List.mem_cons_of_mem _ hx))

/-- Claim C10: encoder selection succeeds (C++ result `≥ 0`) only when
some registered encoder's MIME type is exactly the requested string, in
which case it returns the index of the first such encoder and its
CLSID; it fails (C++ `-1`, surfaced as the encoder-missing error) when
no encoder matches, when the reported encoder-array size is zero, and
when the enumeration itself fails — so the error can be raised even
though a matching encoder is registered (final conjunct). -/
theorem encoder_clsid_spec (sizeVal : Nat) (getOk : Bool)
    (encoders : List (List Char × Nat)) (format : List Char) :
    (∀ k cl, getEncoderClsid sizeVal getOk encoders format = some (k, cl) →
      sizeVal ≠ 0 ∧ getOk = true ∧
      ∃ hk : k < encoders.length, encoders[k].1 = format ∧
        encoders[k].2 = cl ∧
        ∀ i (hi : i < encoders.length), i < k → encoders[i].1 ≠ format) ∧
    ((∀ e ∈ encoders, e.1 ≠ format) →
      getEncoderClsid sizeVal getOk encoders format = none) ∧
    (sizeVal = 0 → getEncoderClsid sizeVal getOk encoders format = none) ∧
    (getOk = false → getEncoderClsid sizeVal getOk encoders format = none) ∧
    (getEncoderClsid 1 false [(format, 7)] format = none ∧
      (format, 7).1 = format) := by
  refine ⟨?_, ?_, ?_, ?_, by simp [getEncoderClsid], rfl⟩
  · intro k cl h
    rw [getEncoderClsid] at h
    by_cases hs : sizeVal = 0
    · rw [if_pos hs] at h
      exact absurd h (by simp)
    · rw [if_neg hs] at h
      cases hg : getOk with
      | false =>
        rw [hg] at h
        simp at h
      | true =>
        rw [hg] at h
        simp only [Bool.true_eq_false, if_false] at h
        obtain ⟨i, hi, hk, hfmt, hcl, hfirst⟩ := findEnc_some format 0 encoders k cl h
        have hki : k = i := by omega
        subst hki
        exact ⟨hs, rfl, hi, hfmt, hcl, hfirst⟩
  · intro hall
    rw [getEncoderClsid]
    by_cases hs : sizeVal = 0
    · rw [if_pos hs]
    · rw [if_neg hs]
      cases getOk with
      | false => simp
      | true => simpa using findEnc_none format 0 encoders hall
  · intro hs
    simp [getEncoderClsid, hs]
  · intro hg
    simp [getEncoderClsid, hg]

/-- Witness for `encoder_clsid_spec`: with size 0 the result is `none`,
and with a failed enumeration the result is `none` even though a
matching encoder is registered. -/
theorem encoder_clsid_spec_witness :
    getEncoderClsid 0 true [] ['a'] = none ∧
    getEncoderClsid 1 false [(['b'], 7)] ['b'] = none :=
  ⟨(encoder_clsid_spec 0 true [] ['a']).2.2.1 rfl,
   (encoder_clsid_spec 1 false [(['b'], 7)] ['b']).2.2.2.1 rfl⟩

end Piclab
